import Mathlib

/-!
Verification development for the stock-decline / foreign-flow reconciliation
dashboard (`stock_foreign_dashboard.py`).

The embedding models the three core components:

* the Fubon ranking extractor (`fetch_fubon_ranking`): a flat `<td>`-cell scan
  that recovers decliner records from an irregular markup table, plus the
  page-date extraction;
* the TWSE flow-lookup builder (`fetch_twse_foreign_data`): response
  usability, row parsing (share counts and lot conversion), and the bounded
  backward date walk;
* the reconciler (`merge_and_classify`) and the two-horizon merge performed
  in `main`.

Strings are modelled through their character lists so that every operation is
kernel-computable (the Python string methods used by the source — `strip`,
single-character `replace`, slicing — are re-implemented on `List Char`).
Python floats produced by `clean_num` are modelled as rationals via a decimal
parser (the source only ever feeds decimal literals to `float`).  Python
`dict` is modelled as an association list with in-place overwrite on duplicate
keys, which reproduces both lookup semantics and insertion-order iteration.
-/

namespace SFD

/-! ### Character-list string utilities (models of the Python string methods) -/

/-- Model of Python `str.strip()` on a character list: drop leading and
trailing whitespace. -/
def pyStripL (cs : List Char) : List Char :=
  ((cs.dropWhile (fun c => c.isWhitespace)).reverse.dropWhile
    (fun c => c.isWhitespace)).reverse

/-- Model of Python `str.strip()`. -/
def pyStrip (s : String) : String :=
  String.mk (pyStripL s.data)

/-- Model of Python `s.replace(ch, "")` for a single character `ch`: remove
every occurrence. -/
def removeChar (cs : List Char) (ch : Char) : List Char :=
  cs.filter (fun c => c ≠ ch)

/-- Numeric value of a digit string (the model of Python `int` applied to a
string that `isdigit` accepted). -/
def digitsToNat (cs : List Char) : Nat :=
  cs.foldl (fun n c => n * 10 + (c.toNat - '0'.toNat)) 0

/-- Decimal fraction-and-integer parser: the model of Python `float` restricted
to plain decimal literals (optional sign, digits, optional fractional part).
The source only feeds it price/volume strings of this shape; exponents and
the special floats are outside the model. -/
def parseDecimalCore (cs : List Char) : Option ℚ :=
  let intPart := cs.takeWhile (fun c => c.isDigit)
  let rest := cs.dropWhile (fun c => c.isDigit)
  match rest with
  | [] =>
    if intPart = [] then none
    else some ((digitsToNat intPart : ℚ))
  | '.' :: frac =>
    if frac.all (fun c => c.isDigit) ∧ (intPart ≠ [] ∨ frac ≠ []) then
      some ((digitsToNat intPart : ℚ) +
        (digitsToNat frac : ℚ) / ((10 : ℚ) ^ frac.length))
    else none
  | _ => none

/-- Signed decimal parser (model of Python `float(text)` on the strings the
source can produce). -/
def parseFloatQ (cs : List Char) : Option ℚ :=
  match cs with
  | '-' :: rest => (parseDecimalCore rest).map (fun q => -q)
  | '+' :: rest => parseDecimalCore rest
  | _ => parseDecimalCore cs

/-- Model of the source's `clean_num` (inside `fetch_fubon_ranking`):
strip, remove commas and spaces, treat empty and a lone "-" as zero, remove
"+" signs, parse as float, defaulting to zero on failure. -/
def clean_num (text : String) : ℚ :=
  let cs := removeChar (removeChar (pyStripL text.data) ',') ' '
  if cs = [] ∨ cs = ['-'] then 0
  else
    match parseFloatQ (removeChar cs '+') with
    | some q => q
    | none => 0

/-- Model of Python `val.replace("%", "")` used on the percent columns. -/
def stripPct (s : String) : String :=
  String.mk (removeChar s.data '%')

/-! ### The flattened cell model and the rank-marker scan -/

/-- One flattened `<td>` cell: its stripped text (`get_text(strip=True)`) and,
when the cell contains an `<a>` descendant carrying an `href`, that href. -/
structure Cell where
  text : String
  href : Option String
  deriving DecidableEq, Inhabited

/-- A cell is a rank marker iff its text is purely numeric (Python `isdigit`)
with value in `[1, 999]`. -/
def isRankMarker (s : String) : Bool :=
  !s.data.isEmpty && s.data.all (fun c => c.isDigit)
    && decide (1 ≤ digitsToNat s.data) && decide (digitsToNat s.data ≤ 999)

/-- Search for the pattern `Link2Stk\('([^']+)'\)` anchored at the head of a
character list; returns the captured code. -/
def tryL2S (cs : List Char) : Option String :=
  match cs with
  | 'L' :: 'i' :: 'n' :: 'k' :: '2' :: 'S' :: 't' :: 'k' :: '(' :: '\'' :: rest =>
    let code := rest.takeWhile (fun c => c ≠ '\'')
    let rest2 := rest.dropWhile (fun c => c ≠ '\'')
    if code ≠ [] then
      match rest2 with
      | '\'' :: ')' :: _ => some (String.mk code)
      | _ => none
    else none
  | _ => none

/-- Model of `re.search(r"Link2Stk\('([^']+)'\)", href)`: leftmost match. -/
def l2sGo : List Char → Option String
  | [] => none
  | c :: rest =>
    match tryL2S (c :: rest) with
    | some code => some code
    | none => l2sGo rest

/-- Extract the stock code embedded in a navigation href. -/
def link2stk (h : String) : Option String :=
  l2sGo h.data

/-- Model of `re.match(r"(\d{4,6}[A-Z]?)", raw)`: a leading code prefix of 4–6
digits optionally followed by one uppercase letter (greedy, anchored). -/
def leadCode (raw : String) : Option String :=
  let cs := raw.data
  let ds := cs.takeWhile (fun c => c.isDigit)
  if 4 ≤ ds.length then
    let t := min ds.length 6
    let code := cs.take t
    match cs.drop t with
    | c :: _ =>
      if 'A' ≤ c ∧ c ≤ 'Z' then some (String.mk (code ++ [c]))
      else some (String.mk code)
    | [] => some (String.mk code)
  else none

/-- The identifier resolution for a name cell: prefer the navigation-link
pattern of the cell's href, fall back to the leading code prefix of the cell
text; `""` means unresolved (Python's falsy `stock_code`). -/
def resolveCode (c : Cell) : String :=
  let fromLink :=
    match c.href with
    | some h =>
      match link2stk h with
      | some code => code
      | none => ""
    | none => ""
  if fromLink ≠ "" then fromLink
  else
    match leadCode c.text with
    | some p => p
    | none => ""

/-- Model of `re.sub(r"^\d{4,6}[A-Z]?\s*", "", stock_name_raw).strip()`:
strip the leading code prefix (if it matches) and surrounding whitespace. -/
def stripCodeName (raw : String) : String :=
  let cs := raw.data
  let ds := cs.takeWhile (fun c => c.isDigit)
  if 4 ≤ ds.length then
    let t := min ds.length 6
    let rest := cs.drop t
    let rest2 :=
      match rest with
      | c :: tail => if 'A' ≤ c ∧ c ≤ 'Z' then tail else rest
      | [] => []
    String.mk (pyStripL (rest2.dropWhile (fun c => c.isWhitespace)))
  else String.mk (pyStripL cs)

/-- One decliner record as produced by `fetch_fubon_ranking` (the dict pushed
onto `stocks`; the `five_day_*` keys hold whichever horizon the page shows). -/
structure RawStock where
  rank : Nat
  code : String
  name : String
  close : ℚ
  change : ℚ
  change_pct : ℚ
  volume : ℚ
  five_day_change : ℚ
  five_day_pct : ℚ
  deriving DecidableEq

/-- Build the emitted record from the rank value, resolved code, stripped name
and the collected cell values (`remaining[0] .. remaining[5]`), exactly as the
source maps them positionally. -/
def mkRawStock (rank : Nat) (code name : String) (r : List String) : RawStock :=
  { rank := rank
    code := code
    name := name
    close := clean_num (r.getD 0 "")
    change := clean_num (r.getD 1 "")
    change_pct := clean_num (stripPct (r.getD 2 ""))
    volume := clean_num (r.getD 3 "")
    five_day_change := clean_num (r.getD 4 "")
    five_day_pct := clean_num (stripPct (r.getD 5 "")) }

/-- The inner collection loop of the scan, written with an explicit fuel
argument so that it is structurally recursive.  `collectCells` below always
calls it with fuel `tds.size - j`; since the loop advances `j` by one per
iteration and exits as soon as `j` reaches `tds.size`, that fuel is exactly
the number of iterations the Python `while` loop can still perform, so the
fuel clause is never the reason the loop stops. -/
def collectGo (tds : Array Cell) : Nat → Nat → List String → List String × Nat
  | 0, j, acc => (acc, j)
  | fuel + 1, j, acc =>
    if h : j < tds.size then
      if acc.length < 8 then
        if isRankMarker (tds.get ⟨j, h⟩).text = true ∧ 6 ≤ acc.length then
          (acc, j)
        else if (tds.get ⟨j, h⟩).text = "" then
          collectGo tds fuel (j + 1) acc
        else
          collectGo tds fuel (j + 1) (acc ++ [(tds.get ⟨j, h⟩).text])
      else (acc, j)
    else (acc, j)

/-- The collection loop of `fetch_fubon_ranking` starting at index `j`:
greedily collect up to 8 non-empty cell texts, stopping early when the next
candidate is a fresh rank marker and at least 6 values are already collected.
Returns the collected values together with the final cursor position `j`. -/
def collectCells (tds : Array Cell) (j : Nat) (acc : List String) :
    List String × Nat :=
  collectGo tds (tds.size - j) j acc

/-- The outer scan loop of `fetch_fubon_ranking`, with fuel: every iteration
advances the cursor by at least one, so `tds.size - i` iterations always
suffice and `scanGo tds (tds.size - i) i` is exactly the Python loop started
at cursor `i` (fuel irrelevance is proved in `scanGo_fuel_irrel`). -/
def scanGo (tds : Array Cell) : Nat → Nat → List RawStock
  | 0, _ => []
  | fuel + 1, i =>
    if h : i < tds.size then
      if isRankMarker (tds.get ⟨i, h⟩).text = true then
        if hn : i + 1 < tds.size then
          if resolveCode (tds.get ⟨i + 1, hn⟩) = "" then
            scanGo tds fuel (i + 1)
          else if 6 ≤ (collectCells tds (i + 2) []).1.length then
            mkRawStock (digitsToNat (tds.get ⟨i, h⟩).text.data)
                (resolveCode (tds.get ⟨i + 1, hn⟩))
                (stripCodeName (tds.get ⟨i + 1, hn⟩).text)
                ((collectCells tds (i + 2) []).1)
              :: scanGo tds fuel (collectCells tds (i + 2) []).2
          else
            scanGo tds fuel (i + 1)
        else []
      else scanGo tds fuel (i + 1)
    else []

/-- The cell scan of `fetch_fubon_ranking` started at cursor `i`. -/
def fubonScan (tds : Array Cell) (i : Nat) : List RawStock :=
  scanGo tds (tds.size - i) i

/-! ### Page-date extraction (the `日期[：:]\s*(\d{1,2}/\d{1,2})` search) -/

/-- Greedy match of the final `\d{1,2}` of the date pattern at the head of a
character list. -/
def matchMD2 (cs : List Char) : Option (List Char) :=
  match cs with
  | a :: b :: _ =>
    if a.isDigit then (if b.isDigit then some [a, b] else some [a]) else none
  | [a] => if a.isDigit then some [a] else none
  | [] => none

/-- Match `\d{1,2}/\d{1,2}` at the head of a character list (greedy with the
one backtracking step the regex engine performs before the `/`); returns the
matched token. -/
def matchMD (cs : List Char) : Option (List Char) :=
  match cs with
  | a :: rest1 =>
    if a.isDigit then
      match rest1 with
      | b :: rest2 =>
        if b.isDigit then
          match rest2 with
          | c :: rest3 =>
            if c = '/' then
              (matchMD2 rest3).map (fun ds => a :: b :: '/' :: ds)
            else none
          | [] => none
        else if b = '/' then (matchMD2 rest2).map (fun ds => a :: '/' :: ds)
        else none
      | [] => none
    else none
  | [] => none

/-- Match the full pattern `日期[：:]\s*(\d{1,2}/\d{1,2})` at the head of a
character list; returns the captured group. -/
def tryDateLabel (cs : List Char) : Option String :=
  match cs with
  | d1 :: d2 :: c :: rest =>
    if d1 = '日' ∧ d2 = '期' ∧ (c = '：' ∨ c = ':') then
      (matchMD (rest.dropWhile (fun ch => ch.isWhitespace))).map String.mk
    else none
  | _ => none

/-- Leftmost search for the date-label pattern (model of `re.search`). -/
def dateSearch : List Char → Option String
  | [] => none
  | c :: rest =>
    match tryDateLabel (c :: rest) with
    | some tok => some tok
    | none => dateSearch rest

/-- The page-date extraction of `fetch_fubon_ranking`: search the page's
visible text for the labelled date pattern; absent means `""`. -/
def extract_page_date (pageText : String) : String :=
  match dateSearch pageText.data with
  | some tok => tok
  | none => ""

/-- Token-shape predicate: the string matches `\d{1,2}/\d{1,2}` exactly. -/
def isDateToken (s : String) : Bool :=
  match s.data with
  | [a, c, b] => a.isDigit && (c == '/') && b.isDigit
  | [a, c2, c3, c4] =>
    (a.isDigit && (c2 == '/') && c3.isDigit && c4.isDigit) ||
    (a.isDigit && c2.isDigit && (c3 == '/') && c4.isDigit)
  | [a, a2, c, b, b2] =>
    a.isDigit && a2.isDigit && (c == '/') && b.isDigit && b2.isDigit
  | _ => false

/-! ### Python dict model (association list with in-place overwrite) -/

/-- Model of `d[k] = v` on a Python dict: overwrite in place when the key is
present (preserving its position in insertion order), else append. -/
def dictInsert {β : Type} (m : List (String × β)) (k : String) (v : β) :
    List (String × β) :=
  match m with
  | [] => [(k, v)]
  | (k0, v0) :: rest =>
    if k0 = k then (k0, v) :: rest else (k0, v0) :: dictInsert rest k v

/-- Model of `d.get(k)` on a Python dict. -/
def dictGet {β : Type} (m : List (String × β)) (k : String) : Option β :=
  match m with
  | [] => none
  | (k0, v0) :: rest => if k0 = k then some v0 else dictGet rest k

/-! ### TWSE flow-lookup builder (`fetch_twse_foreign_data`) -/

/-- One row of the T86 feed; only the first five slots are consumed by the
source (identifier, name, buy/sell/net share counts). -/
structure FeedRow where
  c0 : String
  c1 : String
  c2 : String
  c3 : String
  c4 : String
  deriving DecidableEq

/-- The structured feed response: status indicator and row set. -/
structure FeedResponse where
  stat : String
  data : List FeedRow
  deriving DecidableEq

/-- Usability test of a response: `data.get("stat") == "OK" and
data.get("data")` (a non-empty row list is truthy). -/
def usable (r : FeedResponse) : Bool :=
  r.stat == "OK" && !r.data.isEmpty

/-- Model of Python `int(val)` on a share-count string: optional sign then
digits; parse failure is reported as `none`. -/
def parseIntZ (s : String) : Option Int :=
  match s.data with
  | '-' :: rest =>
    if rest ≠ [] ∧ rest.all (fun c => c.isDigit) then
      some (-(digitsToNat rest : Int))
    else none
  | '+' :: rest =>
    if rest ≠ [] ∧ rest.all (fun c => c.isDigit) then
      some ((digitsToNat rest : Int))
    else none
  | cs =>
    if cs ≠ [] ∧ cs.all (fun c => c.isDigit) then
      some ((digitsToNat cs : Int))
    else none

/-- The source's `parse_shares` (first-attempt path): strip, remove commas,
`int(...)` with 0 on failure. -/
def parse_shares (val : String) : Int :=
  match parseIntZ (String.mk (removeChar (pyStripL val.data) ',')) with
  | some n => n
  | none => 0

/-- The source's `parse_shares2` (backward-walk path); its body is a verbatim
copy of `parse_shares`. -/
def parse_shares2 (val : String) : Int :=
  match parseIntZ (String.mk (removeChar (pyStripL val.data) ',')) with
  | some n => n
  | none => 0

/-- One entry of the flow lookup (`foreign_map[code]`). -/
structure ForeignRec where
  name : String
  buy : Int
  sell : Int
  net : Int
  buy_shares : Int
  sell_shares : Int
  net_shares : Int
  deriving DecidableEq

/-- Build one flow record on the first-attempt path (Python `//` is floor
division, `Int.fdiv`). -/
def mkForeign (row : FeedRow) : ForeignRec :=
  { name := pyStrip row.c1
    buy := Int.fdiv (parse_shares row.c2) 1000
    sell := Int.fdiv (parse_shares row.c3) 1000
    net := Int.fdiv (parse_shares row.c4) 1000
    buy_shares := parse_shares row.c2
    sell_shares := parse_shares row.c3
    net_shares := parse_shares row.c4 }

/-- Build one flow record on the backward-walk path (verbatim copy in the
source, using `parse_shares2`). -/
def mkForeign2 (row : FeedRow) : ForeignRec :=
  { name := pyStrip row.c1
    buy := Int.fdiv (parse_shares2 row.c2) 1000
    sell := Int.fdiv (parse_shares2 row.c3) 1000
    net := Int.fdiv (parse_shares2 row.c4) 1000
    buy_shares := parse_shares2 row.c2
    sell_shares := parse_shares2 row.c3
    net_shares := parse_shares2 row.c4 }

/-- The lookup-construction loop of the first-attempt path. -/
def buildForeignMap (rows : List FeedRow) : List (String × ForeignRec) :=
  rows.foldl (fun m row => dictInsert m (pyStrip row.c0) (mkForeign row)) []

/-- The lookup-construction loop of the backward-walk path. -/
def buildForeignMap2 (rows : List FeedRow) : List (String × ForeignRec) :=
  rows.foldl (fun m row => dictInsert m (pyStrip row.c0) (mkForeign2 row)) []

/-! ### Calendar arithmetic for the backward date walk -/

/-- Gregorian leap-year rule (as implemented by `datetime`). -/
def isLeap (y : Nat) : Bool :=
  (y % 4 == 0 && y % 100 != 0) || y % 400 == 0

/-- Days in a month of the Gregorian calendar. -/
def daysInMonth (y m : Nat) : Nat :=
  if m = 2 then (if isLeap y then 29 else 28)
  else if m = 4 ∨ m = 6 ∨ m = 9 ∨ m = 11 then 30
  else 31

/-- A calendar date. -/
structure Date where
  y : Nat
  m : Nat
  d : Nat
  deriving DecidableEq

/-- The previous calendar day. -/
def prevDay (dt : Date) : Date :=
  if 2 ≤ dt.d then ⟨dt.y, dt.m, dt.d - 1⟩
  else if 2 ≤ dt.m then ⟨dt.y, dt.m - 1, daysInMonth dt.y (dt.m - 1)⟩
  else ⟨dt.y - 1, 12, 31⟩

/-- Model of `dt - timedelta(days=n)`: `n` applications of `prevDay`. -/
def subDays (dt : Date) : Nat → Date
  | 0 => dt
  | n + 1 => prevDay (subDays dt n)

/-- Model of `datetime.strptime(s, "%Y%m%d")` on a well-formed date string. -/
def parseDate (s : String) : Date :=
  ⟨digitsToNat (s.data.take 4),
   digitsToNat ((s.data.drop 4).take 2),
   digitsToNat ((s.data.drop 6).take 2)⟩

/-- Zero-padded two-digit rendering. -/
def pad2 (n : Nat) : String :=
  if n < 10 then "0" ++ toString n else toString n

/-- Zero-padded four-digit rendering. -/
def pad4 (n : Nat) : String :=
  if n < 10 then "000" ++ toString n
  else if n < 100 then "00" ++ toString n
  else if n < 1000 then "0" ++ toString n
  else toString n

/-- Model of `dt.strftime("%Y%m%d")`. -/
def fmtDate (dt : Date) : String :=
  pad4 dt.y ++ pad2 dt.m ++ pad2 dt.d

/-- The display form `s[4:6] + "/" + s[6:8]` of a `YYYYMMDD` string. -/
def sliceDisplay (s : String) : String :=
  String.mk ((s.data.drop 4).take 2 ++ '/' :: (s.data.drop 6).take 2)

/-- The backward walk of `fetch_twse_foreign_data` over the attempt offsets
(the source's `for i in range(1, 8)` with its `else` clause): the first usable
response wins; exhaustion yields the empty lookup and empty date. -/
def twse_walk (fetch : String → FeedResponse) (dt : Date) :
    List Nat → List (String × ForeignRec) × String
  | [] => ([], "")
  | i :: rest =>
    if usable (fetch (fmtDate (subDays dt i))) = true then
      (buildForeignMap2 (fetch (fmtDate (subDays dt i))).data,
       sliceDisplay (fmtDate (subDays dt i)))
    else twse_walk fetch dt rest

/-- Model of `fetch_twse_foreign_data`: the feed fetcher is the external
collaborator (a function from a `YYYYMMDD` date string to a response). -/
def fetch_twse_foreign_data (fetch : String → FeedResponse) (target : String) :
    List (String × ForeignRec) × String :=
  if usable (fetch target) = true then
    (buildForeignMap (fetch target).data, sliceDisplay target)
  else twse_walk fetch (parseDate target) (List.range' 1 7)

/-! ### Two-horizon merge (the merge step of `main`) -/

/-- A merged-horizon record (the dict entering `merge_and_classify`): the
`five_day_*` keys may be absent for records synthesized from the 10-day list,
the `ten_day_*` keys are attached from the secondary lookup when present. -/
structure Stock where
  rank : Nat
  code : String
  name : String
  close : ℚ
  change : ℚ
  change_pct : ℚ
  volume : ℚ
  five_day_change : Option ℚ
  five_day_pct : Option ℚ
  ten_day_change : Option ℚ
  ten_day_pct : Option ℚ
  deriving DecidableEq

/-- One value of `ten_day_map`: the rebadged horizon fields, the secondary
rank, and the full original record. -/
structure TenEntry where
  ten_day_change : ℚ
  ten_day_pct : ℚ
  ten_day_rank : Nat
  full : RawStock
  deriving DecidableEq

/-- The `five_day_map` construction of `main`. -/
def five_day_map (s5 : List RawStock) : List (String × RawStock) :=
  s5.foldl (fun m s => dictInsert m s.code s) []

/-- The `ten_day_map` construction of `main` (the 10-day page reuses the
`five_day_*` field names, rebadged as `ten_day_*`). -/
def ten_day_map (s10 : List RawStock) : List (String × TenEntry) :=
  s10.foldl
    (fun m s => dictInsert m s.code
      ⟨s.five_day_change, s.five_day_pct, s.rank, s⟩) []

/-- Step (A) of the merge: attach the matching 10-day fields (absent →
explicit `none`) to a 5-day record. -/
def attachTen (tdm : List (String × TenEntry)) (s : RawStock) : Stock :=
  { rank := s.rank
    code := s.code
    name := s.name
    close := s.close
    change := s.change
    change_pct := s.change_pct
    volume := s.volume
    five_day_change := some s.five_day_change
    five_day_pct := some s.five_day_pct
    ten_day_change := (dictGet tdm s.code).map (fun td => td.ten_day_change)
    ten_day_pct := (dictGet tdm s.code).map (fun td => td.ten_day_pct) }

/-- Step (B) of the merge: synthesize a record for an identifier present only
in the 10-day lookup (5-day fields explicitly absent). -/
def synthTen (td : TenEntry) : Stock :=
  { rank := td.full.rank
    code := td.full.code
    name := td.full.name
    close := td.full.close
    change := td.full.change
    change_pct := td.full.change_pct
    volume := td.full.volume
    five_day_change := none
    five_day_pct := none
    ten_day_change := some td.ten_day_change
    ten_day_pct := some td.ten_day_pct }

/-- The loop of step (A): walk `stocks_5d`, attaching 10-day fields. -/
def mergeA (tdm : List (String × TenEntry)) : List RawStock → List Stock
  | [] => []
  | s :: rest => attachTen tdm s :: mergeA tdm rest

/-- The loop of step (B): walk `ten_day_map.items()`, keeping only codes not
in `five_day_map`. -/
def mergeB (fdm : List (String × RawStock)) :
    List (String × TenEntry) → List Stock
  | [] => []
  | (code, td) :: rest =>
    if (dictGet fdm code).isNone then synthTen td :: mergeB fdm rest
    else mergeB fdm rest

/-- The full two-horizon merge of `main`: the augmented 5-day list followed by
the only-10-day synthesized records. -/
def mergeHorizons (s5 s10 : List RawStock) : List Stock :=
  mergeA (ten_day_map s10) s5 ++ mergeB (five_day_map s5) (ten_day_map s10)

/-! ### Reconciler (`merge_and_classify`) -/

/-- A merged record after reconciliation: the stock fields plus the six flow
fields, each explicitly optional (absent when the identifier had no flow
match).  When flow data is found, `{**s, **fdata}` also overwrites the display
name with the feed's name. -/
structure Merged where
  rank : Nat
  code : String
  name : String
  close : ℚ
  change : ℚ
  change_pct : ℚ
  volume : ℚ
  five_day_change : Option ℚ
  five_day_pct : Option ℚ
  ten_day_change : Option ℚ
  ten_day_pct : Option ℚ
  buy : Option Int
  sell : Option Int
  net : Option Int
  buy_shares : Option Int
  sell_shares : Option Int
  net_shares : Option Int
  deriving DecidableEq

/-- `{**s, **fdata}`: flow fields present, name overwritten by the feed's. -/
def mkFound (s : Stock) (f : ForeignRec) : Merged :=
  { rank := s.rank
    code := s.code
    name := f.name
    close := s.close
    change := s.change
    change_pct := s.change_pct
    volume := s.volume
    five_day_change := s.five_day_change
    five_day_pct := s.five_day_pct
    ten_day_change := s.ten_day_change
    ten_day_pct := s.ten_day_pct
    buy := some f.buy
    sell := some f.sell
    net := some f.net
    buy_shares := some f.buy_shares
    sell_shares := some f.sell_shares
    net_shares := some f.net_shares }

/-- The no-flow-data branch: all six flow fields explicitly `none`. -/
def mkNoData (s : Stock) : Merged :=
  { rank := s.rank
    code := s.code
    name := s.name
    close := s.close
    change := s.change
    change_pct := s.change_pct
    volume := s.volume
    five_day_change := s.five_day_change
    five_day_pct := s.five_day_pct
    ten_day_change := s.ten_day_change
    ten_day_pct := s.ten_day_pct
    buy := none
    sell := none
    net := none
    buy_shares := none
    sell_shares := none
    net_shares := none }

/-- The classification loop of `merge_and_classify`, producing the three
groups in input order (`buying_list`, `selling_list`, `no_data_list`). -/
def classifyLoop (fmap : List (String × ForeignRec)) :
    List Stock → List Merged × List Merged × List Merged
  | [] => ([], [], [])
  | s :: rest =>
    let r := classifyLoop fmap rest
    match dictGet fmap s.code with
    | some f =>
      if 0 < f.net then (mkFound s f :: r.1, r.2.1, r.2.2)
      else (r.1, mkFound s f :: r.2.1, r.2.2)
    | none => (r.1, r.2.1, mkNoData s :: r.2.2)

/-- The sort key used by both sorts: `x["net"]` (always an integer on the
classified lists; `getD 0` only totalizes the model). -/
def netK (x : Merged) : Int :=
  x.net.getD 0

/-- Stable insertion into a sorted list: the model of one step of Python's
stable `list.sort`. -/
def insertLe {α : Type} (le : α → α → Bool) (x : α) : List α → List α
  | [] => [x]
  | y :: ys => if le x y then x :: y :: ys else y :: insertLe le x ys

/-- Stable sort (Python `list.sort` is specified as a stable sort; insertion
sort realizes exactly that specification, so the two agree element-for-element
on every input). -/
def isortLe {α : Type} (le : α → α → Bool) : List α → List α
  | [] => []
  | x :: xs => insertLe le x (isortLe le xs)

/-- Descending-by-net comparison (`sort(key=..., reverse=True)`). -/
def leDescNet (a b : Merged) : Bool :=
  decide (netK b ≤ netK a)

/-- Ascending-by-net comparison (`sort(key=...)`). -/
def leAscNet (a b : Merged) : Bool :=
  decide (netK a ≤ netK b)

/-- The reconciler `merge_and_classify`: classify each merged record by its
flow lookup entry, then sort `buying` by net lots descending and `selling`
ascending (both stably). -/
def merge_and_classify (stocks : List Stock)
    (fmap : List (String × ForeignRec)) :
    List Merged × List Merged × List Merged :=
  let r := classifyLoop fmap stocks
  (isortLe leDescNet r.1, isortLe leAscNet r.2.1, r.2.2)

/-! ### Selector functions characterizing the classification loop -/

/-- Specification-side selector: the record the loop appends to
`buying_list` for stock `s`, if any. -/
def buySel (fmap : List (String × ForeignRec)) (s : Stock) : Option Merged :=
  match dictGet fmap s.code with
  | some f => if 0 < f.net then some (mkFound s f) else none
  | none => none

/-- Specification-side selector for `selling_list`. -/
def sellSel (fmap : List (String × ForeignRec)) (s : Stock) : Option Merged :=
  match dictGet fmap s.code with
  | some f => if 0 < f.net then none else some (mkFound s f)
  | none => none

/-- Specification-side selector for `no_data_list`. -/
def ndSel (fmap : List (String × ForeignRec)) (s : Stock) : Option Merged :=
  match dictGet fmap s.code with
  | some _ => none
  | none => some (mkNoData s)

/-- The single merged record produced for a stock (whichever group it lands
in). -/
def mergedOf (fmap : List (String × ForeignRec)) (s : Stock) : Merged :=
  match dictGet fmap s.code with
  | some f => mkFound s f
  | none => mkNoData s

/-! ### Concrete fixtures for witnesses -/

/-- A flow record with positive net lots. -/
def exFRec : ForeignRec := ⟨"台積電", 1, 0, 120, 1500, 300, 120000⟩

/-- A merged-horizon stock whose identifier has flow data. -/
def exStockA : Stock :=
  ⟨1, "2330", "台積電", 100, -2, -2, 50, some (-5), some (-4), none, none⟩

/-- A merged-horizon stock whose identifier has no flow data. -/
def exStockB : Stock :=
  ⟨2, "4444", "某股", 30, -1, -3, 20, some (-2), some (-6), none, none⟩

/-- A two-record merged set. -/
def exStocks : List Stock := [exStockA, exStockB]

/-- A one-entry flow lookup covering only `"2330"`. -/
def exFMap : List (String × ForeignRec) := [("2330", exFRec)]

/-! ### Specification-side mirrors of the scan (emission positions) -/

/-- The record the scan emits at a successful rank-marker position `p`. -/
def emitRecordAt (tds : Array Cell) (p : Nat) : RawStock :=
  if h : p < tds.size ∧ p + 1 < tds.size then
    mkRawStock (digitsToNat (tds.get ⟨p, h.1⟩).text.data)
      (resolveCode (tds.get ⟨p + 1, h.2⟩))
      (stripCodeName (tds.get ⟨p + 1, h.2⟩).text)
      ((collectCells tds (p + 2) []).1)
  else mkRawStock 0 "" "" ((collectCells tds (p + 2) []).1)

/-- Mirror of `scanGo` that records the cursor positions at which records are
emitted instead of the records themselves. -/
def posGo (tds : Array Cell) : Nat → Nat → List Nat
  | 0, _ => []
  | fuel + 1, i =>
    if h : i < tds.size then
      if isRankMarker (tds.get ⟨i, h⟩).text = true then
        if hn : i + 1 < tds.size then
          if resolveCode (tds.get ⟨i + 1, hn⟩) = "" then posGo tds fuel (i + 1)
          else if 6 ≤ (collectCells tds (i + 2) []).1.length then
            i :: posGo tds fuel ((collectCells tds (i + 2) []).2)
          else posGo tds fuel (i + 1)
        else []
      else posGo tds fuel (i + 1)
    else []

/-- The positions at which the scan started at cursor `i` emits records. -/
def emitPositions (tds : Array Cell) (i : Nat) : List Nat :=
  posGo tds (tds.size - i) i

/-- A flattened cell sequence containing the same identifier at two rank
markers (no navigation links; codes resolve from the leading prefix). -/
def dupTds : Array Cell :=
  #[⟨"1", none⟩, ⟨"2330台積電", none⟩, ⟨"500", none⟩, ⟨"-10", none⟩,
    ⟨"-1.9%", none⟩, ⟨"25000", none⟩, ⟨"-50", none⟩, ⟨"-9.0%", none⟩,
    ⟨"2", none⟩, ⟨"2330台積電", none⟩, ⟨"20", none⟩, ⟨"-1", none⟩,
    ⟨"-4.7%", none⟩, ⟨"300", none⟩, ⟨"-2", none⟩, ⟨"-9.1%", none⟩]

/-! ### Stable-sort lemma pack -/

theorem insertLe_perm {α : Type} (le : α → α → Bool) (x : α) (l : List α) :
    (insertLe le x l).Perm (x :: l) := by
  induction l with
  | nil => simp [insertLe]
  | cons y ys ih =>
    by_cases h : le x y = true
    · simp [insertLe, h]
    · simp only [insertLe, h]
      rw [if_neg (by simp [h])]
      exact (ih.cons y).trans (List.Perm.swap x y ys)

theorem isortLe_perm {α : Type} (le : α → α → Bool) (l : List α) :
    (isortLe le l).Perm l := by
  induction l with
  | nil => simp [isortLe]
  | cons x xs ih =>
    exact (insertLe_perm le x (isortLe le xs)).trans (ih.cons x)

theorem mem_insertLe {α : Type} (le : α → α → Bool) (x a : α) (l : List α) :
    a ∈ insertLe le x l ↔ a = x ∨ a ∈ l := by
  rw [(insertLe_perm le x l).mem_iff]
  simp

theorem pairwise_insertLe {α : Type} (le : α → α → Bool)
    (htot : ∀ a b, le a b = true ∨ le b a = true)
    (htrans : ∀ a b c, le a b = true → le b c = true → le a c = true)
    (x : α) (l : List α) (h : l.Pairwise (fun a b => le a b = true)) :
    (insertLe le x l).Pairwise (fun a b => le a b = true) := by
  induction l with
  | nil => simp [insertLe]
  | cons y ys ih =>
    rcases List.pairwise_cons.mp h with ⟨hy, hys⟩
    by_cases hxy : le x y = true
    · simp only [insertLe, hxy, if_true]
      refine List.pairwise_cons.mpr ⟨?_, h⟩
      intro z hz
      rcases List.mem_cons.mp hz with rfl | hz'
      · exact hxy
      · exact htrans x y z hxy (hy z hz')
    · simp only [insertLe]
      rw [if_neg (by simp [hxy])]
      refine List.pairwise_cons.mpr ⟨?_, ih hys⟩
      intro z hz
      rcases (mem_insertLe le x z ys).mp hz with rfl | hz'
      · rcases htot z y with hc | hc
        · exact absurd hc hxy
        · exact hc
      · exact hy z hz'

theorem pairwise_isortLe {α : Type} (le : α → α → Bool)
    (htot : ∀ a b, le a b = true ∨ le b a = true)
    (htrans : ∀ a b c, le a b = true → le b c = true → le a c = true)
    (l : List α) :
    (isortLe le l).Pairwise (fun a b => le a b = true) := by
  induction l with
  | nil => simp [isortLe]
  | cons x xs ih => exact pairwise_insertLe le htot htrans x (isortLe le xs) ih

theorem insertLe_filter {α : Type} (k : α → Int) (le : α → α → Bool)
    (hf : ∀ a b, le a b = false → k a ≠ k b) (v : Int) (x : α) (l : List α) :
    (insertLe le x l).filter (fun y => decide (k y = v)) =
      if k x = v then x :: l.filter (fun y => decide (k y = v))
      else l.filter (fun y => decide (k y = v)) := by
  induction l with
  | nil =>
    by_cases hx : k x = v <;> simp [insertLe, List.filter, hx]
  | cons y ys ih =>
    by_cases hxy : le x y = true
    · by_cases hx : k x = v <;>
        simp [insertLe, hxy, List.filter_cons, hx]
    · have hxy' : le x y = false := by simpa using hxy
      have hne : k x ≠ k y := hf x y hxy'
      by_cases hx : k x = v
      · have hy : ¬(k y = v) := fun hyv => hne (hx.trans hyv.symm)
        simp [insertLe, hxy', List.filter_cons, hx, hy, ih]
      · by_cases hy : k y = v <;>
          simp [insertLe, hxy', List.filter_cons, hx, hy, ih]

theorem isortLe_filter {α : Type} (k : α → Int) (le : α → α → Bool)
    (hf : ∀ a b, le a b = false → k a ≠ k b) (v : Int) (l : List α) :
    (isortLe le l).filter (fun y => decide (k y = v)) =
      l.filter (fun y => decide (k y = v)) := by
  induction l with
  | nil => simp [isortLe]
  | cons x xs ih =>
    rw [isortLe, insertLe_filter k le hf, ih, List.filter_cons]
    by_cases hx : k x = v <;> simp [hx]

/-! ### Characterization of the classification loop -/

theorem classifyLoop_eq (fmap : List (String × ForeignRec))
    (stocks : List Stock) :
    classifyLoop fmap stocks =
      (stocks.filterMap (buySel fmap), stocks.filterMap (sellSel fmap),
       stocks.filterMap (ndSel fmap)) := by
  induction stocks with
  | nil => simp [classifyLoop]
  | cons s rest ih =>
    simp only [classifyLoop, ih, List.filterMap_cons]
    cases hget : dictGet fmap s.code with
    | none => simp [buySel, sellSel, ndSel, hget]
    | some f =>
      by_cases hnet : 0 < f.net <;>
        simp [buySel, sellSel, ndSel, hget, hnet]

theorem classify_partition_perm (fmap : List (String × ForeignRec))
    (stocks : List Stock) :
    (stocks.filterMap (buySel fmap) ++ stocks.filterMap (sellSel fmap) ++
      stocks.filterMap (ndSel fmap)).Perm (stocks.map (mergedOf fmap)) := by
  induction stocks with
  | nil => simp
  | cons s rest ih =>
    simp only [List.filterMap_cons, List.map_cons]
    cases hget : dictGet fmap s.code with
    | none =>
      simp only [buySel, sellSel, ndSel, mergedOf, hget]
      exact List.perm_middle.trans (ih.cons _)
    | some f =>
      by_cases hnet : 0 < f.net
      · simp only [buySel, sellSel, ndSel, mergedOf, hget, hnet, if_true]
        exact ih.cons _
      · simp only [buySel, sellSel, ndSel, mergedOf, hget, hnet, if_false]
        exact ((List.perm_middle.append_right _).trans (ih.cons _))

theorem buySel_inv {fmap : List (String × ForeignRec)} {s : Stock} {x : Merged}
    (h : buySel fmap s = some x) :
    ∃ f, dictGet fmap s.code = some f ∧ 0 < f.net ∧ x = mkFound s f := by
  cases hget : dictGet fmap s.code with
  | none => simp [buySel, hget] at h
  | some f =>
    by_cases hn : 0 < f.net
    · simp only [buySel, hget, hn, if_true, Option.some.injEq] at h
      exact ⟨f, rfl, hn, h.symm⟩
    · simp [buySel, hget, hn] at h

theorem sellSel_inv {fmap : List (String × ForeignRec)} {s : Stock} {x : Merged}
    (h : sellSel fmap s = some x) :
    ∃ f, dictGet fmap s.code = some f ∧ ¬0 < f.net ∧ x = mkFound s f := by
  cases hget : dictGet fmap s.code with
  | none => simp [sellSel, hget] at h
  | some f =>
    by_cases hn : 0 < f.net
    · simp [sellSel, hget, hn] at h
    · simp only [sellSel, hget, hn, if_false, Option.some.injEq] at h
      exact ⟨f, rfl, hn, h.symm⟩

theorem ndSel_inv {fmap : List (String × ForeignRec)} {s : Stock} {x : Merged}
    (h : ndSel fmap s = some x) :
    dictGet fmap s.code = none ∧ x = mkNoData s := by
  cases hget : dictGet fmap s.code with
  | none =>
    simp only [ndSel, hget, Option.some.injEq] at h
    exact ⟨rfl, h.symm⟩
  | some f => simp [ndSel, hget] at h

theorem mem_buying_iff (stocks : List Stock) (fmap : List (String × ForeignRec))
    (x : Merged) :
    x ∈ (merge_and_classify stocks fmap).1 ↔
      ∃ s ∈ stocks, buySel fmap s = some x := by
  show x ∈ isortLe leDescNet (classifyLoop fmap stocks).1 ↔ _
  rw [(isortLe_perm leDescNet _).mem_iff, classifyLoop_eq]
  exact List.mem_filterMap

theorem mem_selling_iff (stocks : List Stock) (fmap : List (String × ForeignRec))
    (x : Merged) :
    x ∈ (merge_and_classify stocks fmap).2.1 ↔
      ∃ s ∈ stocks, sellSel fmap s = some x := by
  show x ∈ isortLe leAscNet (classifyLoop fmap stocks).2.1 ↔ _
  rw [(isortLe_perm leAscNet _).mem_iff, classifyLoop_eq]
  exact List.mem_filterMap

theorem nodata_eq (stocks : List Stock) (fmap : List (String × ForeignRec)) :
    (merge_and_classify stocks fmap).2.2 = stocks.filterMap (ndSel fmap) := by
  show (classifyLoop fmap stocks).2.2 = _
  rw [classifyLoop_eq]

theorem mem_buying_net {stocks : List Stock} {fmap : List (String × ForeignRec)}
    {x : Merged} (hx : x ∈ (merge_and_classify stocks fmap).1) :
    ∃ f, dictGet fmap x.code = some f ∧ 0 < f.net := by
  rcases (mem_buying_iff stocks fmap x).mp hx with ⟨s, _, hsel⟩
  rcases buySel_inv hsel with ⟨f, hget, hn, rfl⟩
  exact ⟨f, hget, hn⟩

theorem mem_selling_net {stocks : List Stock} {fmap : List (String × ForeignRec)}
    {x : Merged} (hx : x ∈ (merge_and_classify stocks fmap).2.1) :
    ∃ f, dictGet fmap x.code = some f ∧ ¬0 < f.net := by
  rcases (mem_selling_iff stocks fmap x).mp hx with ⟨s, _, hsel⟩
  rcases sellSel_inv hsel with ⟨f, hget, hn, rfl⟩
  exact ⟨f, hget, hn⟩

theorem mem_nodata_none {stocks : List Stock} {fmap : List (String × ForeignRec)}
    {x : Merged} (hx : x ∈ (merge_and_classify stocks fmap).2.2) :
    dictGet fmap x.code = none := by
  rw [nodata_eq] at hx
  rcases List.mem_filterMap.mp hx with ⟨s, _, hsel⟩
  rcases ndSel_inv hsel with ⟨hget, rfl⟩
  exact hget

/-- C1: for every merged record whose identifier is present in the flow
lookup, the reconciler routes it to `buying` exactly when its net lots are
strictly positive and to `selling` exactly when they are zero or negative;
every merged record whose identifier is absent from the lookup is routed to
`noFlowData` with all six flow fields explicitly `none`, never zero. -/
theorem claim_C1_routing (stocks : List Stock)
    (fmap : List (String × ForeignRec)) (s : Stock) (hs : s ∈ stocks) :
    (∀ f, dictGet fmap s.code = some f →
      ((mkFound s f ∈ (merge_and_classify stocks fmap).1 ↔ 0 < f.net) ∧
       (mkFound s f ∈ (merge_and_classify stocks fmap).2.1 ↔ f.net ≤ 0))) ∧
    (dictGet fmap s.code = none →
      mkNoData s ∈ (merge_and_classify stocks fmap).2.2 ∧
      (mkNoData s).buy = none ∧ (mkNoData s).sell = none ∧
      (mkNoData s).net = none ∧ (mkNoData s).buy_shares = none ∧
      (mkNoData s).sell_shares = none ∧ (mkNoData s).net_shares = none) := by
  constructor
  · intro f hget
    constructor
    · constructor
      · intro hmem
        rcases mem_buying_net hmem with ⟨f', hget', hn'⟩
        have hcode : (mkFound s f).code = s.code := rfl
        rw [hcode, hget] at hget'
        obtain rfl : f = f' := Option.some.inj hget'
        exact hn'
      · intro hn
        refine (mem_buying_iff stocks fmap _).mpr ⟨s, hs, ?_⟩
        simp [buySel, hget, hn]
    · constructor
      · intro hmem
        rcases mem_selling_net hmem with ⟨f', hget', hn'⟩
        have hcode : (mkFound s f).code = s.code := rfl
        rw [hcode, hget] at hget'
        obtain rfl : f = f' := Option.some.inj hget'
        omega
      · intro hn
        refine (mem_selling_iff stocks fmap _).mpr ⟨s, hs, ?_⟩
        simp [sellSel, hget, show ¬0 < f.net by omega]
  · intro hget
    refine ⟨?_, rfl, rfl, rfl, rfl, rfl, rfl⟩
    rw [nodata_eq]
    refine List.mem_filterMap.mpr ⟨s, hs, ?_⟩
    simp [ndSel, hget]

/-- C2: the three output groups exactly partition the merged record set:
their concatenation is a permutation of the per-record classification of the
input, the lengths add up, and no identifier appears in two distinct
groups. -/
theorem claim_C2_partition (stocks : List Stock)
    (fmap : List (String × ForeignRec)) :
    ((merge_and_classify stocks fmap).1 ++ (merge_and_classify stocks fmap).2.1
        ++ (merge_and_classify stocks fmap).2.2).Perm
      (stocks.map (mergedOf fmap)) ∧
    (merge_and_classify stocks fmap).1.length +
        (merge_and_classify stocks fmap).2.1.length +
        (merge_and_classify stocks fmap).2.2.length = stocks.length ∧
    (∀ x ∈ (merge_and_classify stocks fmap).1,
      ∀ y ∈ (merge_and_classify stocks fmap).2.1, x.code ≠ y.code) ∧
    (∀ x ∈ (merge_and_classify stocks fmap).1,
      ∀ y ∈ (merge_and_classify stocks fmap).2.2, x.code ≠ y.code) ∧
    (∀ x ∈ (merge_and_classify stocks fmap).2.1,
      ∀ y ∈ (merge_and_classify stocks fmap).2.2, x.code ≠ y.code) := by
  have hperm : ((merge_and_classify stocks fmap).1 ++
      (merge_and_classify stocks fmap).2.1 ++
      (merge_and_classify stocks fmap).2.2).Perm
      (stocks.map (mergedOf fmap)) := by
    have h1 : (merge_and_classify stocks fmap).1.Perm
        (stocks.filterMap (buySel fmap)) := by
      show (isortLe leDescNet (classifyLoop fmap stocks).1).Perm _
      rw [classifyLoop_eq]
      exact isortLe_perm _ _
    have h2 : (merge_and_classify stocks fmap).2.1.Perm
        (stocks.filterMap (sellSel fmap)) := by
      show (isortLe leAscNet (classifyLoop fmap stocks).2.1).Perm _
      rw [classifyLoop_eq]
      exact isortLe_perm _ _
    have h3 : (merge_and_classify stocks fmap).2.2 =
        stocks.filterMap (ndSel fmap) := nodata_eq stocks fmap
    rw [h3]
    exact ((h1.append h2).append_right _).trans
      (classify_partition_perm fmap stocks)
  refine ⟨hperm, ?_, ?_, ?_, ?_⟩
  · have h := hperm.length_eq
    simp only [List.length_append, List.length_map] at h
    omega
  · intro x hx y hy hcode
    rcases mem_buying_net hx with ⟨f, hget, hn⟩
    rcases mem_selling_net hy with ⟨f', hget', hn'⟩
    rw [hcode, hget'] at hget
    obtain rfl : f' = f := Option.some.inj hget
    exact hn' hn
  · intro x hx y hy hcode
    rcases mem_buying_net hx with ⟨f, hget, _⟩
    have hnone := mem_nodata_none hy
    rw [hcode, hnone] at hget
    exact Option.noConfusion hget
  · intro x hx y hy hcode
    rcases mem_selling_net hx with ⟨f, hget, _⟩
    have hnone := mem_nodata_none hy
    rw [hcode, hnone] at hget
    exact Option.noConfusion hget

/-- C6: `buying` is non-increasing and `selling` non-decreasing by net lots;
`noFlowData` is emitted in input (primary-horizon) order; and both sorts are
stable with respect to the pre-sort order (which is the input order of the
classification loop): for every net-lot value the records carrying it appear
in exactly their pre-sort relative order. -/
theorem claim_C6_ordering (stocks : List Stock)
    (fmap : List (String × ForeignRec)) :
    (merge_and_classify stocks fmap).1.Pairwise
      (fun a b => netK b ≤ netK a) ∧
    (merge_and_classify stocks fmap).2.1.Pairwise
      (fun a b => netK a ≤ netK b) ∧
    (merge_and_classify stocks fmap).2.2 = stocks.filterMap (ndSel fmap) ∧
    (∀ v : Int, (merge_and_classify stocks fmap).1.filter
        (fun x => decide (netK x = v)) =
      (stocks.filterMap (buySel fmap)).filter (fun x => decide (netK x = v))) ∧
    (∀ v : Int, (merge_and_classify stocks fmap).2.1.filter
        (fun x => decide (netK x = v)) =
      (stocks.filterMap (sellSel fmap)).filter
        (fun x => decide (netK x = v))) := by
  have htotD : ∀ a b : Merged, leDescNet a b = true ∨ leDescNet b a = true := by
    intro a b
    simp only [leDescNet, decide_eq_true_eq]
    omega
  have htransD : ∀ a b c : Merged, leDescNet a b = true → leDescNet b c = true →
      leDescNet a c = true := by
    intro a b c
    simp only [leDescNet, decide_eq_true_eq]
    omega
  have htotA : ∀ a b : Merged, leAscNet a b = true ∨ leAscNet b a = true := by
    intro a b
    simp only [leAscNet, decide_eq_true_eq]
    omega
  have htransA : ∀ a b c : Merged, leAscNet a b = true → leAscNet b c = true →
      leAscNet a c = true := by
    intro a b c
    simp only [leAscNet, decide_eq_true_eq]
    omega
  have hfD : ∀ a b : Merged, leDescNet a b = false → netK a ≠ netK b := by
    intro a b h
    simp only [leDescNet, decide_eq_false_iff_not] at h
    omega
  have hfA : ∀ a b : Merged, leAscNet a b = false → netK a ≠ netK b := by
    intro a b h
    simp only [leAscNet, decide_eq_false_iff_not] at h
    omega
  refine ⟨?_, ?_, nodata_eq stocks fmap, ?_, ?_⟩
  · have := pairwise_isortLe leDescNet htotD htransD (classifyLoop fmap stocks).1
    refine this.imp ?_
    intro a b h
    simpa [leDescNet] using h
  · have := pairwise_isortLe leAscNet htotA htransA (classifyLoop fmap stocks).2.1
    refine this.imp ?_
    intro a b h
    simpa [leAscNet] using h
  · intro v
    show (isortLe leDescNet (classifyLoop fmap stocks).1).filter _ = _
    rw [isortLe_filter netK leDescNet hfD v, classifyLoop_eq]
  · intro v
    show (isortLe leAscNet (classifyLoop fmap stocks).2.1).filter _ = _
    rw [isortLe_filter netK leAscNet hfA v, classifyLoop_eq]

/-- Witness for C1: the routing characterization applied at the concrete
two-stock input (one identifier with positive net flow, one absent). -/
theorem claim_C1_routing_witness :
    ((mkFound exStockA exFRec ∈ (merge_and_classify exStocks exFMap).1 ↔
        0 < exFRec.net) ∧
     (mkFound exStockA exFRec ∈ (merge_and_classify exStocks exFMap).2.1 ↔
        exFRec.net ≤ 0)) ∧
    (mkNoData exStockB ∈ (merge_and_classify exStocks exFMap).2.2 ∧
      (mkNoData exStockB).buy = none ∧ (mkNoData exStockB).sell = none ∧
      (mkNoData exStockB).net = none ∧ (mkNoData exStockB).buy_shares = none ∧
      (mkNoData exStockB).sell_shares = none ∧
      (mkNoData exStockB).net_shares = none) := by
  constructor
  · exact (claim_C1_routing exStocks exFMap exStockA (by decide)).1 exFRec
      (by decide)
  · exact (claim_C1_routing exStocks exFMap exStockB (by decide)).2 (by decide)

/-- Witness for C2: the cross-group identifier disjointness applied at
concrete members of `buying` and `noFlowData`. -/
theorem claim_C2_partition_witness :
    (mkFound exStockA exFRec).code ≠ (mkNoData exStockB).code :=
  (claim_C2_partition exStocks exFMap).2.2.2.1 (mkFound exStockA exFRec)
    (by decide) (mkNoData exStockB) (by decide)

/-! ### C4: lot derivation (floor vs truncation) -/

/-- C4 as stated is refuted: lot fields come from Python floor division
(`//`), not from an integer-truncated quotient; a row with net share count
−1500 yields net lots −2 while the truncated quotient is −1. -/
theorem claim_C4_counterexample :
    (mkForeign ⟨"2330", "台積電", "1500", "3000", "-1500"⟩).net_shares
        = -1500 ∧
    (mkForeign ⟨"2330", "台積電", "1500", "3000", "-1500"⟩).net = -2 ∧
    Int.tdiv (-1500) 1000 = -1 ∧
    (mkForeign ⟨"2330", "台積電", "1500", "3000", "-1500"⟩).net ≠
      Int.tdiv
        (mkForeign ⟨"2330", "台積電", "1500", "3000", "-1500"⟩).net_shares
        1000 := by
  refine ⟨by decide, by decide, by decide, by decide⟩

/-- C4 amended: for every parsed feed row the lot-denominated fields equal
the floor quotient (Python `//`, rounding toward negative infinity) of the
corresponding raw share counts by 1000, on both the first-attempt and
backward-walk paths; for non-negative share counts this coincides with the
integer-truncated quotient. -/
theorem claim_C4_floor_lots (row : FeedRow) :
    ((mkForeign row).buy = Int.fdiv (mkForeign row).buy_shares 1000 ∧
     (mkForeign row).sell = Int.fdiv (mkForeign row).sell_shares 1000 ∧
     (mkForeign row).net = Int.fdiv (mkForeign row).net_shares 1000) ∧
    ((mkForeign2 row).buy = Int.fdiv (mkForeign2 row).buy_shares 1000 ∧
     (mkForeign2 row).sell = Int.fdiv (mkForeign2 row).sell_shares 1000 ∧
     (mkForeign2 row).net = Int.fdiv (mkForeign2 row).net_shares 1000) ∧
    (0 ≤ (mkForeign row).buy_shares →
      (mkForeign row).buy = Int.tdiv (mkForeign row).buy_shares 1000) ∧
    (0 ≤ (mkForeign row).sell_shares →
      (mkForeign row).sell = Int.tdiv (mkForeign row).sell_shares 1000) ∧
    (0 ≤ (mkForeign row).net_shares →
      (mkForeign row).net = Int.tdiv (mkForeign row).net_shares 1000) := by
  have hcoinc : ∀ a : Int, 0 ≤ a → Int.fdiv a 1000 = Int.tdiv a 1000 := by
    intro a ha
    exact Int.fdiv_eq_tdiv ha (by norm_num)
  refine ⟨⟨rfl, rfl, rfl⟩, ⟨rfl, rfl, rfl⟩, ?_, ?_, ?_⟩
  · intro h
    exact hcoinc _ h
  · intro h
    exact hcoinc _ h
  · intro h
    exact hcoinc _ h

/-- Witness for the amended C4 at a concrete all-positive row. -/
theorem claim_C4_floor_lots_witness :
    (0 ≤ (mkForeign ⟨"2330", "台積電", "2500", "1200", "1300"⟩).net_shares) ∧
    (mkForeign ⟨"2330", "台積電", "2500", "1200", "1300"⟩).net =
      Int.tdiv
        (mkForeign ⟨"2330", "台積電", "2500", "1200", "1300"⟩).net_shares
        1000 :=
  ⟨by decide,
   (claim_C4_floor_lots ⟨"2330", "台積電", "2500", "1200", "1300"⟩).2.2.2.2
     (by decide)⟩

/-! ### C5: the backward date walk -/

theorem twse_walk_eq (fetch : String → FeedResponse) (dt : Date)
    (l : List Nat) :
    twse_walk fetch dt l =
      match l.find? (fun i => usable (fetch (fmtDate (subDays dt i)))) with
      | some i =>
        (buildForeignMap2 (fetch (fmtDate (subDays dt i))).data,
         sliceDisplay (fmtDate (subDays dt i)))
      | none => ([], "") := by
  induction l with
  | nil => rfl
  | cons i rest ih =>
    by_cases h : usable (fetch (fmtDate (subDays dt i))) = true
    · rw [twse_walk, if_pos h]
      simp [List.find?_cons, h]
    · rw [twse_walk, if_neg h, ih]
      simp [List.find?_cons, h]

/-- C5: a response is usable iff its status equals the success sentinel and
its row set is non-empty; when the requested date is unusable the builder
re-requests one calendar day earlier at a time over the offsets 1..7, the
first usable response determines both the lookup and the returned
`actualDate` (the display form of the day that produced data), and
exhaustion yields the empty lookup and empty date — the function is total,
so no failure is raised. -/
theorem claim_C5_date_walk (fetch : String → FeedResponse) (target : String) :
    (∀ r : FeedResponse, usable r = true ↔ (r.stat = "OK" ∧ r.data ≠ [])) ∧
    fetch_twse_foreign_data fetch target =
      (if usable (fetch target) = true then
        (buildForeignMap (fetch target).data, sliceDisplay target)
      else
        match (List.range' 1 7).find?
            (fun i => usable (fetch (fmtDate (subDays (parseDate target) i))))
          with
        | some i =>
          (buildForeignMap2
            (fetch (fmtDate (subDays (parseDate target) i))).data,
           sliceDisplay (fmtDate (subDays (parseDate target) i)))
        | none => ([], "")) := by
  constructor
  · intro r
    simp [usable, List.isEmpty_iff]
  · unfold fetch_twse_foreign_data
    by_cases h : usable (fetch target) = true
    · rw [if_pos h, if_pos h]
    · rw [if_neg h, if_neg h, twse_walk_eq]

/-! ### C7: the two-horizon merge -/

theorem mergeA_eq (tdm : List (String × TenEntry)) (l : List RawStock) :
    mergeA tdm l = l.map (attachTen tdm) := by
  induction l with
  | nil => rfl
  | cons s rest ih => rw [mergeA, ih, List.map_cons]

theorem mergeB_eq (fdm : List (String × RawStock))
    (l : List (String × TenEntry)) :
    mergeB fdm l =
      (l.filter (fun p => (dictGet fdm p.1).isNone)).map
        (fun p => synthTen p.2) := by
  induction l with
  | nil => rfl
  | cons p rest ih =>
    rcases p with ⟨code, td⟩
    by_cases h : (dictGet fdm code).isNone
    · rw [mergeB, if_pos h, ih, List.filter_cons]
      simp [h]
    · rw [mergeB, if_neg h, ih, List.filter_cons]
      simp [h]

/-- C7: the two-horizon merge equals the augmented primary list followed by
the synthesized only-secondary records; synthesized records carry secondary
fields with primary-horizon fields explicitly `none` and take their rank from
the secondary ranking; every primary record gets the matching secondary
fields attached when present and explicitly `none` otherwise. -/
theorem claim_C7_two_horizon_merge (s5 s10 : List RawStock) :
    mergeHorizons s5 s10 =
      s5.map (attachTen (ten_day_map s10)) ++
        ((ten_day_map s10).filter
          (fun p => (dictGet (five_day_map s5) p.1).isNone)).map
          (fun p => synthTen p.2) ∧
    (∀ td : TenEntry,
      (synthTen td).five_day_change = none ∧
      (synthTen td).five_day_pct = none ∧
      (synthTen td).ten_day_change = some td.ten_day_change ∧
      (synthTen td).ten_day_pct = some td.ten_day_pct ∧
      (synthTen td).rank = td.full.rank ∧
      (synthTen td).code = td.full.code) ∧
    (∀ (tdm : List (String × TenEntry)) (s : RawStock),
      (attachTen tdm s).five_day_change = some s.five_day_change ∧
      (attachTen tdm s).five_day_pct = some s.five_day_pct ∧
      (attachTen tdm s).ten_day_change =
        (dictGet tdm s.code).map (fun td => td.ten_day_change) ∧
      (attachTen tdm s).ten_day_pct =
        (dictGet tdm s.code).map (fun td => td.ten_day_pct) ∧
      (attachTen tdm s).rank = s.rank ∧
      (attachTen tdm s).code = s.code) := by
  refine ⟨?_, fun td => ⟨rfl, rfl, rfl, rfl, rfl, rfl⟩,
    fun tdm s => ⟨rfl, rfl, rfl, rfl, rfl, rfl⟩⟩
  rw [mergeHorizons, mergeA_eq, mergeB_eq]

/-! ### C10: the two lookup-building paths agree -/

/-- C10: the backward-walk path's share parsing, record construction and
lookup construction coincide with the first-attempt path's. -/
theorem claim_C10_paths_agree :
    (∀ v : String, parse_shares v = parse_shares2 v) ∧
    (∀ row : FeedRow, mkForeign row = mkForeign2 row) ∧
    (∀ rows : List FeedRow, buildForeignMap rows = buildForeignMap2 rows) :=
  ⟨fun _ => rfl, fun _ => rfl, fun _ => rfl⟩

/-! ### Lemmas about the cell scan -/

theorem collectGo_start_le (tds : Array Cell) :
    ∀ fuel j acc, j ≤ (collectGo tds fuel j acc).2 := by
  intro fuel
  induction fuel with
  | zero => intro j acc; simp [collectGo]
  | succ f ih =>
    intro j acc
    simp only [collectGo]
    by_cases hj : j < tds.size
    · rw [dif_pos hj]
      by_cases hlen : acc.length < 8
      · rw [if_pos hlen]
        by_cases hbreak :
            isRankMarker (tds.get ⟨j, hj⟩).text = true ∧ 6 ≤ acc.length
        · rw [if_pos hbreak]
        · rw [if_neg hbreak]
          by_cases hemp : (tds.get ⟨j, hj⟩).text = ""
          · rw [if_pos hemp]
            exact le_trans (by omega) (ih (j + 1) acc)
          · rw [if_neg hemp]
            exact le_trans (by omega) (ih (j + 1) _)
      · rw [if_neg hlen]
    · rw [dif_neg hj]

theorem collectCells_start_le (tds : Array Cell) (j : Nat) (acc : List String) :
    j ≤ (collectCells tds j acc).2 :=
  collectGo_start_le tds (tds.size - j) j acc

theorem scanGo_oob (tds : Array Cell) :
    ∀ fuel i, ¬i < tds.size → scanGo tds fuel i = [] := by
  intro fuel i hi
  cases fuel with
  | zero => rfl
  | succ f => simp only [scanGo]; rw [dif_neg hi]

theorem posGo_oob (tds : Array Cell) :
    ∀ fuel i, ¬i < tds.size → posGo tds fuel i = [] := by
  intro fuel i hi
  cases fuel with
  | zero => rfl
  | succ f => simp only [posGo]; rw [dif_neg hi]

theorem scanGo_fuel_irrel (tds : Array Cell) :
    ∀ fuel fuel2 i, tds.size - i ≤ fuel → tds.size - i ≤ fuel2 →
      scanGo tds fuel i = scanGo tds fuel2 i := by
  intro fuel
  induction fuel using Nat.strong_induction_on with
  | _ fuel IH =>
    intro fuel2 i hf hf2
    by_cases hi : i < tds.size
    · obtain ⟨f0, rfl⟩ : ∃ f0, fuel = f0 + 1 := by
        cases fuel with
        | zero => omega
        | succ f0 => exact ⟨f0, rfl⟩
      obtain ⟨f2, rfl⟩ : ∃ f2, fuel2 = f2 + 1 := by
        cases fuel2 with
        | zero => omega
        | succ f2 => exact ⟨f2, rfl⟩
      simp only [scanGo]
      rw [dif_pos hi, dif_pos hi]
      by_cases hm : isRankMarker (tds.get ⟨i, hi⟩).text = true
      · rw [if_pos hm, if_pos hm]
        by_cases hn : i + 1 < tds.size
        · rw [dif_pos hn, dif_pos hn]
          by_cases hc : resolveCode (tds.get ⟨i + 1, hn⟩) = ""
          · rw [if_pos hc, if_pos hc]
            exact IH f0 (by omega) f2 (i + 1) (by omega) (by omega)
          · rw [if_neg hc, if_neg hc]
            by_cases h6 : 6 ≤ (collectCells tds (i + 2) []).1.length
            · rw [if_pos h6, if_pos h6]
              have hj := collectCells_start_le tds (i + 2) []
              congr 1
              exact IH f0 (by omega) f2 ((collectCells tds (i + 2) []).2)
                (by omega) (by omega)
            · rw [if_neg h6, if_neg h6]
              exact IH f0 (by omega) f2 (i + 1) (by omega) (by omega)
        · rw [dif_neg hn, dif_neg hn]
      · rw [if_neg hm, if_neg hm]
        exact IH f0 (by omega) f2 (i + 1) (by omega) (by omega)
    · rw [scanGo_oob tds _ i hi, scanGo_oob tds _ i hi]

theorem fubonScan_eq_scanGo (tds : Array Cell) (fuel i : Nat)
    (h : tds.size - i ≤ fuel) : fubonScan tds i = scanGo tds fuel i :=
  scanGo_fuel_irrel tds (tds.size - i) fuel i (le_refl _) h

/-- C3: at every rank marker reached by the scan, a record is emitted iff an
identifier was resolved for the following name cell and at least 6 subsequent
non-empty cell values were collected; when emitted, the record's fields are
the first six collected values mapped positionally (close, change,
change-percent with percent sign stripped, volume, horizon change, horizon
percent), and in every other case the scan resynchronizes by advancing one
cell (or stops at the end of input). -/
theorem claim_C3_emission (tds : Array Cell) (i : Nat) (hi : i < tds.size)
    (hm : isRankMarker (tds.get ⟨i, hi⟩).text = true) :
    (¬i + 1 < tds.size → fubonScan tds i = []) ∧
    (∀ hn : i + 1 < tds.size,
      (resolveCode (tds.get ⟨i + 1, hn⟩) = "" →
        fubonScan tds i = fubonScan tds (i + 1)) ∧
      (resolveCode (tds.get ⟨i + 1, hn⟩) ≠ "" →
        ((collectCells tds (i + 2) []).1.length < 6 →
          fubonScan tds i = fubonScan tds (i + 1)) ∧
        (6 ≤ (collectCells tds (i + 2) []).1.length →
          fubonScan tds i =
            mkRawStock (digitsToNat (tds.get ⟨i, hi⟩).text.data)
                (resolveCode (tds.get ⟨i + 1, hn⟩))
                (stripCodeName (tds.get ⟨i + 1, hn⟩).text)
                ((collectCells tds (i + 2) []).1) ::
              fubonScan tds ((collectCells tds (i + 2) []).2)))) ∧
    (∀ (rank : Nat) (code name : String) (r : List String),
      (mkRawStock rank code name r).rank = rank ∧
      (mkRawStock rank code name r).code = code ∧
      (mkRawStock rank code name r).name = name ∧
      (mkRawStock rank code name r).close = clean_num (r.getD 0 "") ∧
      (mkRawStock rank code name r).change = clean_num (r.getD 1 "") ∧
      (mkRawStock rank code name r).change_pct =
        clean_num (stripPct (r.getD 2 "")) ∧
      (mkRawStock rank code name r).volume = clean_num (r.getD 3 "") ∧
      (mkRawStock rank code name r).five_day_change =
        clean_num (r.getD 4 "") ∧
      (mkRawStock rank code name r).five_day_pct =
        clean_num (stripPct (r.getD 5 ""))) := by
  obtain ⟨f0, hf0⟩ : ∃ f0, tds.size - i = f0 + 1 := ⟨tds.size - i - 1, by omega⟩
  have hstep : fubonScan tds i = scanGo tds (f0 + 1) i := by
    rw [fubonScan, hf0]
  refine ⟨?_, ?_, fun rank code name r =>
    ⟨rfl, rfl, rfl, rfl, rfl, rfl, rfl, rfl, rfl⟩⟩
  · intro hn
    rw [hstep]
    simp only [scanGo]
    rw [dif_pos hi, if_pos hm, dif_neg hn]
  · intro hn
    constructor
    · intro hc
      rw [hstep]
      simp only [scanGo]
      rw [dif_pos hi, if_pos hm, dif_pos hn, if_pos hc]
      exact (fubonScan_eq_scanGo tds f0 (i + 1) (by omega)).symm
    · intro hc
      constructor
      · intro h6
        rw [hstep]
        simp only [scanGo]
        rw [dif_pos hi, if_pos hm, dif_pos hn, if_neg hc,
          if_neg (by omega)]
        exact (fubonScan_eq_scanGo tds f0 (i + 1) (by omega)).symm
      · intro h6
        rw [hstep]
        simp only [scanGo]
        rw [dif_pos hi, if_pos hm, dif_pos hn, if_neg hc, if_pos h6]
        have hj := collectCells_start_le tds (i + 2) []
        congr 1
        exact (fubonScan_eq_scanGo tds f0 _ (by omega)).symm

/-- Witness for C3: the emission branch applied at the head marker of the
concrete cell sequence `dupTds`. -/
theorem claim_C3_emission_witness :
    6 ≤ (collectCells dupTds 2 []).1.length ∧
    fubonScan dupTds 0 =
      mkRawStock (digitsToNat (dupTds.get ⟨0, by decide⟩).text.data)
          (resolveCode (dupTds.get ⟨1, by decide⟩))
          (stripCodeName (dupTds.get ⟨1, by decide⟩).text)
          ((collectCells dupTds 2 []).1) ::
        fubonScan dupTds ((collectCells dupTds 2 []).2) := by
  refine ⟨by decide, ?_⟩
  exact ((((claim_C3_emission dupTds 0 (by decide) (by decide)).2.1
    (by decide)).2 (by decide)).2 (by decide))

theorem scanGo_map (tds : Array Cell) :
    ∀ fuel i, scanGo tds fuel i = (posGo tds fuel i).map (emitRecordAt tds) := by
  intro fuel
  induction fuel with
  | zero => intro i; rfl
  | succ f ih =>
    intro i
    simp only [scanGo, posGo]
    by_cases hi : i < tds.size
    · rw [dif_pos hi, dif_pos hi]
      by_cases hm : isRankMarker (tds.get ⟨i, hi⟩).text = true
      · rw [if_pos hm, if_pos hm]
        by_cases hn : i + 1 < tds.size
        · rw [dif_pos hn, dif_pos hn]
          by_cases hc : resolveCode (tds.get ⟨i + 1, hn⟩) = ""
          · rw [if_pos hc, if_pos hc]
            exact ih (i + 1)
          · rw [if_neg hc, if_neg hc]
            by_cases h6 : 6 ≤ (collectCells tds (i + 2) []).1.length
            · rw [if_pos h6, if_pos h6, List.map_cons]
              rw [ih ((collectCells tds (i + 2) []).2)]
              congr 1
              rw [emitRecordAt, dif_pos ⟨hi, hn⟩]
            · rw [if_neg h6, if_neg h6]
              exact ih (i + 1)
        · rw [dif_neg hn, dif_neg hn]
          rfl
      · rw [if_neg hm, if_neg hm]
        exact ih (i + 1)
    · rw [dif_neg hi, dif_neg hi]
      rfl

theorem posGo_ge (tds : Array Cell) :
    ∀ fuel i p, p ∈ posGo tds fuel i → i ≤ p := by
  intro fuel
  induction fuel with
  | zero => intro i p hp; simp [posGo] at hp
  | succ f ih =>
    intro i p hp
    simp only [posGo] at hp
    by_cases hi : i < tds.size
    · rw [dif_pos hi] at hp
      by_cases hm : isRankMarker (tds.get ⟨i, hi⟩).text = true
      · rw [if_pos hm] at hp
        by_cases hn : i + 1 < tds.size
        · rw [dif_pos hn] at hp
          by_cases hc : resolveCode (tds.get ⟨i + 1, hn⟩) = ""
          · rw [if_pos hc] at hp
            exact le_trans (by omega) (ih (i + 1) p hp)
          · rw [if_neg hc] at hp
            by_cases h6 : 6 ≤ (collectCells tds (i + 2) []).1.length
            · rw [if_pos h6] at hp
              rcases List.mem_cons.mp hp with rfl | hp'
              · exact le_refl _
              · have hj := collectCells_start_le tds (i + 2) []
                exact le_trans (by omega) (ih _ p hp')
            · rw [if_neg h6] at hp
              exact le_trans (by omega) (ih (i + 1) p hp)
        · rw [dif_neg hn] at hp
          simp at hp
      · rw [if_neg hm] at hp
        exact le_trans (by omega) (ih (i + 1) p hp)
    · rw [dif_neg hi] at hp
      simp at hp

theorem posGo_chain (tds : Array Cell) :
    ∀ fuel i, List.Chain' (fun a b => a < b) (posGo tds fuel i) := by
  intro fuel
  induction fuel with
  | zero => intro i; simp [posGo]
  | succ f ih =>
    intro i
    simp only [posGo]
    by_cases hi : i < tds.size
    · rw [dif_pos hi]
      by_cases hm : isRankMarker (tds.get ⟨i, hi⟩).text = true
      · rw [if_pos hm]
        by_cases hn : i + 1 < tds.size
        · rw [dif_pos hn]
          by_cases hc : resolveCode (tds.get ⟨i + 1, hn⟩) = ""
          · rw [if_pos hc]; exact ih (i + 1)
          · rw [if_neg hc]
            by_cases h6 : 6 ≤ (collectCells tds (i + 2) []).1.length
            · rw [if_pos h6]
              refine List.chain'_cons'.mpr ⟨?_, ih _⟩
              intro b hb
              have hb' := posGo_ge tds f _ b (List.mem_of_mem_head? hb)
              have hj := collectCells_start_le tds (i + 2) []
              omega
            · rw [if_neg h6]; exact ih (i + 1)
        · rw [dif_neg hn]; simp
      · rw [if_neg hm]; exact ih (i + 1)
    · rw [dif_neg hi]; simp

/-- C8: the emitted records are exactly the records built at a strictly
increasing sequence of scan positions, so extraction preserves the source
order of rank markers; and a concrete input carrying the same identifier at
two markers yields it twice — the extractor does not deduplicate. -/
theorem claim_C8_order_preserved :
    (∀ (tds : Array Cell) (i : Nat),
      fubonScan tds i = (emitPositions tds i).map (emitRecordAt tds)) ∧
    (∀ (tds : Array Cell) (i : Nat),
      List.Chain' (fun a b => a < b) (emitPositions tds i)) ∧
    (fubonScan dupTds 0).map (fun r => r.code) = ["2330", "2330"] := by
  refine ⟨?_, ?_, by decide⟩
  · intro tds i
    exact scanGo_map tds (tds.size - i) i
  · intro tds i
    exact posGo_chain tds (tds.size - i) i

/-! ### Lemmas about the page-date extraction -/

theorem matchMD2_shape (cs ds : List Char) (h : matchMD2 cs = some ds) :
    (∃ x, ds = [x] ∧ x.isDigit = true) ∨
    (∃ x y, ds = [x, y] ∧ x.isDigit = true ∧ y.isDigit = true) := by
  match cs, h with
  | [], h => exact absurd h (by simp [matchMD2])
  | [a], h =>
    simp only [matchMD2] at h
    by_cases ha : a.isDigit = true
    · rw [if_pos ha] at h
      exact Or.inl ⟨a, (Option.some.inj h).symm, ha⟩
    · rw [if_neg ha] at h
      simp at h
  | a :: b :: rest, h =>
    simp only [matchMD2] at h
    by_cases ha : a.isDigit = true
    · rw [if_pos ha] at h
      by_cases hb : b.isDigit = true
      · rw [if_pos hb] at h
        exact Or.inr ⟨a, b, (Option.some.inj h).symm, ha, hb⟩
      · rw [if_neg hb] at h
        exact Or.inl ⟨a, (Option.some.inj h).symm, ha⟩
    · rw [if_neg ha] at h
      simp at h

theorem matchMD_shape (cs ms : List Char) (h : matchMD cs = some ms) :
    isDateToken (String.mk ms) = true := by
  cases cs with
  | nil => exact absurd h (by simp [matchMD])
  | cons a rest1 =>
    cases rest1 with
    | nil =>
      simp only [matchMD] at h
      rw [ite_self] at h
      simp at h
    | cons b rest2 =>
      cases rest2 with
      | nil =>
        simp only [matchMD] at h
        by_cases ha : a.isDigit = true
        · rw [if_pos ha] at h
          by_cases hb : b.isDigit = true
          · rw [if_pos hb] at h
            simp at h
          · by_cases hb2 : b = '/'
            · rw [if_neg hb, if_pos hb2] at h
              simp [matchMD2] at h
            · rw [if_neg hb, if_neg hb2] at h
              simp at h
        · rw [if_neg ha] at h
          simp at h
      | cons c rest3 =>
        simp only [matchMD] at h
        by_cases ha : a.isDigit = true
        · rw [if_pos ha] at h
          by_cases hb : b.isDigit = true
          · rw [if_pos hb] at h
            by_cases hc : c = '/'
            · rw [if_pos hc] at h
              cases hm2 : matchMD2 rest3 with
              | none => rw [hm2] at h; simp at h
              | some ds =>
                rw [hm2] at h
                simp only [Option.map_some'] at h
                obtain rfl : a :: b :: '/' :: ds = ms := Option.some.inj h
                rcases matchMD2_shape rest3 ds hm2 with
                  ⟨x, rfl, hx⟩ | ⟨x, y, rfl, hx, hy⟩
                · show isDateToken (String.mk [a, b, '/', x]) = true
                  simp [isDateToken, ha, hb, hx]
                · show isDateToken (String.mk [a, b, '/', x, y]) = true
                  simp [isDateToken, ha, hb, hx, hy]
            · rw [if_neg hc] at h
              simp at h
          · by_cases hb2 : b = '/'
            · rw [if_neg hb, if_pos hb2] at h
              cases hm2 : matchMD2 (c :: rest3) with
              | none => rw [hm2] at h; simp at h
              | some ds =>
                rw [hm2] at h
                simp only [Option.map_some'] at h
                obtain rfl : a :: '/' :: ds = ms := Option.some.inj h
                rcases matchMD2_shape (c :: rest3) ds hm2 with
                  ⟨x, rfl, hx⟩ | ⟨x, y, rfl, hx, hy⟩
                · show isDateToken (String.mk [a, '/', x]) = true
                  simp [isDateToken, ha, hx]
                · show isDateToken (String.mk [a, '/', x, y]) = true
                  simp [isDateToken, ha, hx, hy]
            · rw [if_neg hb, if_neg hb2] at h
              simp at h
        · rw [if_neg ha] at h
          simp at h

theorem tryDateLabel_shape (cs : List Char) (tok : String)
    (h : tryDateLabel cs = some tok) : isDateToken tok = true := by
  match cs, h with
  | [], h => exact absurd h (by simp [tryDateLabel])
  | [d1], h => exact absurd h (by simp [tryDateLabel])
  | [d1, d2], h => exact absurd h (by simp [tryDateLabel])
  | d1 :: d2 :: c :: rest, h =>
    simp only [tryDateLabel] at h
    by_cases hlab : d1 = '日' ∧ d2 = '期' ∧ (c = '：' ∨ c = ':')
    · rw [if_pos hlab] at h
      cases hmd : matchMD (rest.dropWhile (fun ch => ch.isWhitespace)) with
      | none => rw [hmd] at h; simp at h
      | some ms =>
        rw [hmd] at h
        simp only [Option.map_some'] at h
        obtain rfl : String.mk ms = tok := Option.some.inj h
        exact matchMD_shape _ ms hmd
    · rw [if_neg hlab] at h
      simp at h

theorem dateSearch_none (cs : List Char) (h : dateSearch cs = none) :
    ∀ k, tryDateLabel (cs.drop k) = none := by
  induction cs with
  | nil =>
    intro k
    rw [List.drop_nil]
    rfl
  | cons c rest ih =>
    have h0 : tryDateLabel (c :: rest) = none := by
      cases htl : tryDateLabel (c :: rest) with
      | none => rfl
      | some tok =>
        simp only [dateSearch, htl] at h
        exact absurd h (by simp)
    have hrest : dateSearch rest = none := by
      simpa only [dateSearch, h0] using h
    intro k
    cases k with
    | zero => exact h0
    | succ k2 => simpa using ih hrest k2

theorem dateSearch_some (cs : List Char) (tok : String)
    (h : dateSearch cs = some tok) :
    ∃ k, tryDateLabel (cs.drop k) = some tok := by
  induction cs with
  | nil => exact absurd h (by simp [dateSearch])
  | cons c rest ih =>
    cases htl : tryDateLabel (c :: rest) with
    | some tok2 =>
      simp only [dateSearch, htl, Option.some.injEq] at h
      exact ⟨0, by rw [List.drop_zero, htl, h]⟩
    | none =>
      simp only [dateSearch, htl] at h
      rcases ih h with ⟨k, hk⟩
      exact ⟨k + 1, by simpa using hk⟩

/-- C9: the extractor's reference date is either the empty string — exactly
when no label-qualified date occurrence exists anywhere in the page text (the
match can fail, extraction still returns) — or a token of shape
`\d{1,2}/\d{1,2}` produced by the label-qualified pattern at some position
of the page text. -/
theorem claim_C9_page_date (pageText : String) :
    (extract_page_date pageText = "" ∧
      ∀ k, tryDateLabel (pageText.data.drop k) = none) ∨
    (isDateToken (extract_page_date pageText) = true ∧
      ∃ k, tryDateLabel (pageText.data.drop k) =
        some (extract_page_date pageText)) := by
  cases hds : dateSearch pageText.data with
  | none =>
    left
    constructor
    · rw [extract_page_date, hds]
    · exact dateSearch_none _ hds
  | some tok =>
    right
    have he : extract_page_date pageText = tok := by
      rw [extract_page_date, hds]
    constructor
    · rw [he]
      rcases dateSearch_some _ _ hds with ⟨k, hk⟩
      exact tryDateLabel_shape _ tok hk
    · rcases dateSearch_some _ _ hds with ⟨k, hk⟩
      exact ⟨k, by rw [he]; exact hk⟩

end SFD
